import Mathlib

/-!
Shallow embedding of the IOMMU DMA-API glue layer
(`drivers/iommu/dma-iommu.c`) and proofs about its documented behaviour.

Machine integers are modelled as `Nat`.  The one place where unsigned
wrap-around genuinely occurs during normal operation (the `size_t`
subtraction in the scatter-gather padding computation) is modelled
explicitly modulo `2 ^ 64` via `size_sub`; theorems carry hypotheses
keeping all other quantities far below their C types' ranges, so no
other wrap can occur on the inputs the theorems speak about.

The IOVA granule is always `1 << order` in the source, so shift/mask
helpers from `include/linux/iova.h` (not part of the collected sources)
are modelled with `/`, `%` and `*` on a power-of-two granule.
-/

/-- `size_t` subtraction `a - b`, two's-complement modulo `2 ^ 64`
(for `a < 2 ^ 64`). -/
def size_sub (a b : Nat) : Nat := (a + 2 ^ 64 - b % 2 ^ 64) % 2 ^ 64

/-- Modelled from the spec: `iova_align` (from `include/linux/iova.h`,
not among the collected sources) rounds a byte size up to the next
multiple of the granule. -/
def iova_align (g n : Nat) : Nat := ((n + g - 1) / g) * g

/-- Modelled from the spec: `iova_offset` masks out the in-granule
offset of an address (`iova & (granule - 1)` for a power-of-two
granule). -/
def iova_offset (g n : Nat) : Nat := n % g

/-- Fuel-driven binary logarithm; `log2f 64 n` is exact for `n < 2 ^ 64`,
which covers every machine word this development ever feeds it. -/
def log2f : Nat → Nat → Nat
  | 0, _ => 0
  | f + 1, n => if n ≤ 1 then 0 else 1 + log2f f (n / 2)

/-- `ilog2` on 64-bit words: floor of the base-2 logarithm (0 at 0). -/
def ilog2 (n : Nat) : Nat := log2f 64 n

/-- Modelled from the spec: `fls` (find last set) on 64-bit words:
one-based index of the highest set bit, 0 for 0. -/
def fls (n : Nat) : Nat := if n = 0 then 0 else ilog2 n + 1

/-- `__fls`: zero-based index of the highest set bit (callers guarantee
a non-zero argument). -/
def __fls (n : Nat) : Nat := ilog2 n

/-- Fuel-driven count of trailing zero bits, exact below `2 ^ 64`. -/
def ffsAux : Nat → Nat → Nat
  | 0, _ => 0
  | f + 1, n => if n = 0 ∨ n % 2 = 1 then 0 else 1 + ffsAux f (n / 2)

/-- `__ffs` on 64-bit words: index of the lowest set bit. -/
def __ffs (n : Nat) : Nat := ffsAux 64 n

/-- Modelled from the spec: `roundup_pow_of_two` (from
`include/linux/log2.h`, not among the collected sources):
`1UL << fls_long(n - 1)`, the least power of two `≥ n` (and 1 at 0). -/
def roundup_pow_of_two (n : Nat) : Nat := 2 ^ fls (n - 1)

/-- The arm64 DMA error sentinel `DMA_ERROR_CODE = ~(dma_addr_t)0`. -/
def DMA_ERROR_CODE : Nat := 2 ^ 64 - 1

/-- CPU page size assumed by the collected sources. -/
def PAGE_SIZE : Nat := 4096

/-- Default `MAX_ORDER` of the kernel page allocator. -/
def MAX_ORDER : Nat := 11

/-! ## Scatterlist entries

A `struct scatterlist` as this file sees it: the CPU-side
`offset`/`length` pair plus the DMA output fields `dma_address`
(`sg_dma_address`) and `dma_len` (`sg_dma_len`). -/

structure SGEnt where
  offset : Nat
  length : Nat
  dma_address : Nat
  dma_len : Nat
deriving Repr, DecidableEq

/-- The per-segment body of the first loop of `iommu_dma_map_sg`:
stash `(offset % granule, length)` in the DMA fields, align the offset
down and the length up to granules. -/
def sg_swizzle (g : Nat) (s : SGEnt) : SGEnt :=
  { offset := s.offset - iova_offset g s.offset
    length := iova_align g (s.length + iova_offset g s.offset)
    dma_address := iova_offset g s.offset
    dma_len := s.length }

/-- The padding computation of `iommu_dma_map_sg`:
`pad_len = roundup_pow_of_two(s_length); pad_len = (pad_len - iova_len)
& (pad_len - 1)` in `size_t` arithmetic. -/
def sg_pad (iova_len s_length : Nat) : Nat :=
  let p := roundup_pow_of_two s_length
  size_sub p iova_len &&& (p - 1)

/-- The first (swizzle/padding) loop of `iommu_dma_map_sg`, written as a
tail recursion: `acc` holds the already-processed segments in reverse
order (its head is the loop's `prev`), `iova_len` the running total. -/
def map_sg_pass1_go (g : Nat) : List SGEnt → List SGEnt → Nat → List SGEnt × Nat
  | acc, [], iova_len => (acc.reverse, iova_len)
  | acc, s :: rest, iova_len =>
    let s' := sg_swizzle g s
    match acc with
    | [] => map_sg_pass1_go g [s'] rest (iova_len + s'.length)
    | prev :: acc' =>
      let pad := sg_pad iova_len s'.length
      map_sg_pass1_go g (s' :: { prev with length := prev.length + pad } :: acc')
        rest (iova_len + pad + s'.length)

/-- The complete first loop of `iommu_dma_map_sg`: the transformed list
and the accumulated `iova_len`. -/
def iommu_dma_map_sg_pass1 (g : Nat) (l : List SGEnt) : List SGEnt × Nat :=
  map_sg_pass1_go g [] l 0

/-- `__invalidate_sg` applied to one entry. -/
def sg_inval (s : SGEnt) : SGEnt :=
  { offset := if s.dma_address ≠ DMA_ERROR_CODE then s.offset + s.dma_address else s.offset
    length := if s.dma_len ≠ 0 then s.dma_len else s.length
    dma_address := DMA_ERROR_CODE
    dma_len := 0 }

/-- `__invalidate_sg`: restore a swizzled list, poisoning the DMA
fields. -/
def __invalidate_sg (l : List SGEnt) : List SGEnt := l.map sg_inval

/-- `__finalise_sg`: un-swizzle a successfully mapped list, handing out
per-segment bus addresses carved out of the single interval at
`dma_addr`.  The `int` return of the C function is the list length. -/
def __finalise_sg (dma_addr : Nat) : List SGEnt → List SGEnt
  | [] => []
  | s :: rest =>
    { offset := s.offset + s.dma_address
      length := s.dma_len
      dma_address := dma_addr + s.dma_address
      dma_len := s.dma_len } :: __finalise_sg (dma_addr + s.length) rest

/-- `__alloc_iova`: clamp the DMA limit to the domain aperture and ask
the backing IOVA allocator (modelled as the oracle `orc`, returning the
granule-units base pfn) for `iova_align(size) >> shift` granules,
always with `size_aligned = true` (the last argument). -/
def __alloc_iova (g : Nat) (force_aperture : Bool) (aperture_end : Nat)
    (orc : Nat → Nat → Bool → Option Nat) (size dma_limit : Nat) : Option Nat :=
  let limit := if force_aperture then min dma_limit aperture_end else dma_limit
  orc (iova_align g size / g) (limit / g) true

/-- Result of `iommu_dma_map_sg`: the final list, the `int` return
value, and bookkeeping of the IOVA reservation for the invariants. -/
structure MapSgOut where
  sgl : List SGEnt
  ret : Nat
  allocPfn : Option Nat
  iovaFreed : Bool
deriving Repr, DecidableEq

/-- `iommu_dma_map_sg`: swizzle/pad, reserve one interval, ask the
low-level programmer (`install`, returning bytes mapped) to install the
whole list, then either finalise or restore-and-return-0. -/
def iommu_dma_map_sg (g : Nat) (force_aperture : Bool) (aperture_end : Nat)
    (orc : Nat → Nat → Bool → Option Nat) (dma_mask : Nat)
    (install : Nat → List SGEnt → Nat) (l : List SGEnt) : MapSgOut :=
  let p := iommu_dma_map_sg_pass1 g l
  match __alloc_iova g force_aperture aperture_end orc p.2 dma_mask with
  | none => { sgl := __invalidate_sg p.1, ret := 0, allocPfn := none, iovaFreed := false }
  | some pfn =>
    if install (pfn * g) p.1 < p.2 then
      { sgl := __invalidate_sg p.1, ret := 0, allocPfn := some pfn, iovaFreed := true }
    else
      { sgl := __finalise_sg (pfn * g) p.1, ret := p.1.length,
        allocPfn := some pfn, iovaFreed := false }

/-! ## Single-region mapping (`iommu_dma_map_page`) -/

/-- Trace of one `iommu_dma_map_page` call: the byte length passed to
`__alloc_iova`, the pfn it returned, the `(dma_addr, phys, len)` triple
handed to `iommu_map` (the low-level programmer), whether the interval
was freed again, and the returned bus address. -/
structure MapPageTrace where
  allocLen : Nat
  allocPfn : Option Nat
  installed : Option (Nat × Nat × Nat)
  iovaFreed : Bool
  ret : Nat
deriving Repr, DecidableEq

/-- `iommu_dma_map_page`: `phys = page_to_phys(page) + offset`; round
the length out to whole granules around `phys`, reserve, install the
translation at the granule-aligned physical base, and return the base
plus the in-granule offset.  `mapOk` models `iommu_map` succeeding. -/
def iommu_dma_map_page (g : Nat) (force_aperture : Bool) (aperture_end : Nat)
    (orc : Nat → Nat → Bool → Option Nat) (page_phys offset size dma_mask : Nat)
    (mapOk : Nat → Nat → Nat → Bool) : MapPageTrace :=
  let phys := page_phys + offset
  let iova_off := iova_offset g phys
  let len := iova_align g (size + iova_off)
  match __alloc_iova g force_aperture aperture_end orc len dma_mask with
  | none =>
    { allocLen := len, allocPfn := none, installed := none, iovaFreed := false
      ret := DMA_ERROR_CODE }
  | some pfn =>
    let dma_addr := pfn * g
    if mapOk dma_addr (phys - iova_off) len then
      { allocLen := len, allocPfn := some pfn
        installed := some (dma_addr, phys - iova_off, len)
        iovaFreed := false, ret := dma_addr + iova_off }
    else
      { allocLen := len, allocPfn := some pfn
        installed := some (dma_addr, phys - iova_off, len)
        iovaFreed := true, ret := DMA_ERROR_CODE }

/-! ## Domain (re-)initialisation (`iommu_dma_init_domain`) -/

/-- The slice of `struct iova_domain` this file needs (this kernel
stores the upper bound in `dma_32bit_pfn`); `start_pfn = 0` marks an
uninitialised allocator, exactly the test the source performs. -/
structure IovaDomain where
  granule : Nat
  start_pfn : Nat
  dma_32bit_pfn : Nat
deriving Repr, DecidableEq

/-- `domain->geometry`. -/
structure DomGeometry where
  force_aperture : Bool
  aperture_start : Nat
  aperture_end : Nat
deriving Repr, DecidableEq

/-- `iommu_dma_init_domain`.  `hasIovaCookie` models
`cookie && cookie->type == IOMMU_DMA_IOVA_COOKIE`; errno values are the
`Int` return (0, `-EINVAL = -22`, `-EFAULT = -14`). -/
def iommu_dma_init_domain (hasIovaCookie : Bool) (pgsize_bitmap : Nat)
    (geo : DomGeometry) (st : IovaDomain) (base size : Nat) : Int × IovaDomain :=
  if !hasIovaCookie then (-22, st)
  else
    let order := __ffs pgsize_bitmap
    let base_pfn := max 1 (base / 2 ^ order)
    let end_pfn := (base + size - 1) / 2 ^ order
    if geo.force_aperture &&
        (decide (geo.aperture_end < base) || decide (base + size ≤ geo.aperture_start)) then
      (-14, st)
    else
      let base_pfn := if geo.force_aperture then max base_pfn (geo.aperture_start / 2 ^ order)
        else base_pfn
      let end_pfn := if geo.force_aperture then min end_pfn (geo.aperture_end / 2 ^ order)
        else end_pfn
      if st.start_pfn ≠ 0 then
        if 2 ^ order ≠ st.granule ∨ base_pfn ≠ st.start_pfn ∨ end_pfn < st.dma_32bit_pfn then
          (-14, st)
        else (0, { st with dma_32bit_pfn := end_pfn })
      else (0, { granule := 2 ^ order, start_pfn := base_pfn, dma_32bit_pfn := end_pfn })

/-! ## Buffer page acquisition (`__iommu_dma_alloc_pages`) -/

/-- Response of the page-frame allocator to one `alloc_pages` call:
the first page of the run, whether the run came back as a compound
page, and whether `split_huge_page` on it would succeed. -/
structure PgResp where
  base : Nat
  compound : Bool
  splitOk : Bool
deriving Repr, DecidableEq

/-- Outcome of the descending-order `for` loop in
`__iommu_dma_alloc_pages`: a run was obtained at some order, or the
loop ran out with the local `page` pointer still holding a freed
compound run (the source does not clear it), or with `page == NULL`. -/
inductive TryRes where
  | got (base order : Nat)
  | stale (base : Nat)
  | nopage
deriving Repr, DecidableEq

/-- Trace of the descending-order loop. -/
structure TryOut where
  res : TryRes
  ci : Nat
  freed : List (Nat × Nat)
  attempts : List Nat
deriving Repr, DecidableEq

/-- The `for (order = ...; order > 0; order--)` loop: try
`alloc_pages` at each order; non-compound runs are split and used,
compound runs are kept if `split_huge_page` succeeds and freed
otherwise (leaving the `page` variable dangling on loop exit). `ci`
numbers the allocator calls. -/
def try_orders (orc : Nat → Nat → Option PgResp) : Nat → Nat → Option Nat → TryOut
  | 0, ci, page =>
    { res := match page with
        | some b => TryRes.stale b
        | none => TryRes.nopage
      ci := ci, freed := [], attempts := [] }
  | o + 1, ci, _ =>
    match orc ci (o + 1) with
    | none =>
      let t := try_orders orc o (ci + 1) none
      { t with attempts := (o + 1) :: t.attempts }
    | some r =>
      if r.compound then
        if r.splitOk then
          { res := TryRes.got r.base (o + 1), ci := ci + 1, freed := [], attempts := [o + 1] }
        else
          let t := try_orders orc o (ci + 1) (some r.base)
          { t with freed := (r.base, o + 1) :: t.freed, attempts := (o + 1) :: t.attempts }
      else
        { res := TryRes.got r.base (o + 1), ci := ci + 1, freed := [], attempts := [o + 1] }

/-- Result of `__iommu_dma_alloc_pages`: the page array (`none` on
failure), the single pages released by the failure path's
`__iommu_dma_free_pages(pages, i)`, the runs freed inside the loop
after a failed `split_huge_page`, the orders attempted in call order,
and `acquired` — the contents of the `pages` array at exit (everything
the loop ever stored), kept so that "everything obtained was released"
is a statement about the trace rather than a convention. -/
structure PagesOut where
  pages : Option (List Nat)
  freedPages : List Nat
  freedRuns : List (Nat × Nat)
  attempts : List Nat
  acquired : List Nat
deriving Repr, DecidableEq

/-- The `while (count)` loop of `__iommu_dma_alloc_pages`.  Each round
re-clamps the order, runs the descending loop, falls back to a single
`alloc_page`, and on total failure frees everything acquired so far.
`fuel ≥ count` suffices since every round consumes at least one page
(the `fuel = 0, count ≠ 0` branch is unreachable from the wrapper). -/
def alloc_pages_rounds (orc : Nat → Nat → Option PgResp) :
    Nat → Nat → Nat → Nat → List Nat → PagesOut
  | 0, _, _, count, acc =>
    if count = 0 then { pages := some acc, freedPages := [], freedRuns := [], attempts := []
                        acquired := acc }
    else { pages := none, freedPages := acc, freedRuns := [], attempts := [], acquired := acc }
  | fuel + 1, ci, order, count, acc =>
    if count = 0 then { pages := some acc, freedPages := [], freedRuns := [], attempts := []
                        acquired := acc }
    else
      match try_orders orc (min order (__fls count)) ci none with
      | { res := TryRes.got b o, ci := ci2, freed := freed, attempts := att } =>
        let out := alloc_pages_rounds orc fuel ci2 o (count - 2 ^ o)
          (acc ++ List.range' b (2 ^ o))
        { out with freedRuns := freed ++ out.freedRuns, attempts := att ++ out.attempts }
      | { res := TryRes.stale b, ci := ci2, freed := freed, attempts := att } =>
        let out := alloc_pages_rounds orc fuel ci2 0 (count - 1) (acc ++ [b])
        { out with freedRuns := freed ++ out.freedRuns, attempts := att ++ out.attempts }
      | { res := TryRes.nopage, ci := ci2, freed := freed, attempts := att } =>
        match orc ci2 0 with
        | some r =>
          let out := alloc_pages_rounds orc fuel (ci2 + 1) 0 (count - 1) (acc ++ [r.base])
          { out with freedRuns := freed ++ out.freedRuns
                     attempts := att ++ [0] ++ out.attempts }
        | none =>
          { pages := none, freedPages := acc, freedRuns := freed
            attempts := att ++ [0], acquired := acc }

/-- `__iommu_dma_alloc_pages count`: acquire `count` single pages using
best-effort large runs, starting from `MAX_ORDER`. -/
def __iommu_dma_alloc_pages (orc : Nat → Nat → Option PgResp) (count : Nat) : PagesOut :=
  alloc_pages_rounds orc count 0 MAX_ORDER count []

/-! ## Contiguous buffer allocation (`iommu_dma_alloc`) -/

/-- Trace of one `iommu_dma_alloc` call. -/
structure DmaAllocTrace where
  pagesOut : PagesOut
  iovaRequested : Bool
  iovaAllocated : Option Nat
  iovaFreed : Bool
  ret : Option (Nat × List Nat)
deriving Repr, DecidableEq

/-- `iommu_dma_alloc`: acquire `PAGE_ALIGN(size) >> PAGE_SHIFT` pages,
then reserve one IOVA interval, build the scatter table
(`sgAllocOk`), flush if non-coherent (no modelled state), and install
the mapping (`mapped` bytes actually mapped).  Every failure unwinds
what was acquired; the IOVA interval is requested only after all pages
are in hand. -/
def iommu_dma_alloc (g : Nat) (force_aperture : Bool) (aperture_end : Nat)
    (orcPages : Nat → Nat → Option PgResp) (orcIova : Nat → Nat → Bool → Option Nat)
    (size coherent_mask : Nat) (sgAllocOk : Bool) (mapped : Nat) : DmaAllocTrace :=
  let count := (size + PAGE_SIZE - 1) / PAGE_SIZE
  let po := __iommu_dma_alloc_pages orcPages count
  match po.pages with
  | none =>
    { pagesOut := po, iovaRequested := false, iovaAllocated := none
      iovaFreed := false, ret := none }
  | some pages =>
    match __alloc_iova g force_aperture aperture_end orcIova size coherent_mask with
    | none =>
      { pagesOut := po, iovaRequested := true, iovaAllocated := none
        iovaFreed := false, ret := none }
    | some pfn =>
      if !sgAllocOk then
        { pagesOut := po, iovaRequested := true, iovaAllocated := some pfn
          iovaFreed := true, ret := none }
      else if mapped < iova_align g size then
        { pagesOut := po, iovaRequested := true, iovaAllocated := some pfn
          iovaFreed := true, ret := none }
      else
        { pagesOut := po, iovaRequested := true, iovaAllocated := some pfn
          iovaFreed := false, ret := some (pfn * g, pages) }

/-! ## MSI doorbell remapping -/

/-- One cached doorbell translation (`struct iommu_dma_msi_page`). -/
structure MsiPage where
  phys : Nat
  iova : Nat
deriving Repr, DecidableEq

/-- The MSI-relevant cookie state: the strategy discriminant, the
linear bump cursor (`msi_iova`, used when not `full`), and the
doorbell cache in most-recently-added-first order (`list_add`
prepends). -/
structure MsiCookie where
  full : Bool
  msi_iova : Nat
  pages : List MsiPage
deriving Repr, DecidableEq

/-- `iommu_dma_get_msi_page`: mask the doorbell address to the granule,
look it up in the cache, and on a miss allocate one granule (full
allocator or bump cursor), install a write-only mapping (`mapOk`), and
cache the entry; every failure rolls the cookie back. -/
def iommu_dma_get_msi_page (g : Nat) (force_aperture : Bool) (aperture_end : Nat)
    (orc : Nat → Nat → Bool → Option Nat) (dma_mask msi_addr : Nat)
    (ck : MsiCookie) (kallocOk : Bool) (mapOk : Nat → Nat → Bool) :
    Option MsiPage × MsiCookie :=
  let addr := msi_addr - msi_addr % g
  match ck.pages.find? (fun p => p.phys = addr) with
  | some p => (some p, ck)
  | none =>
    if !kallocOk then (none, ck)
    else if ck.full then
      match __alloc_iova g force_aperture aperture_end orc g dma_mask with
      | none => (none, ck)
      | some pfn =>
        if mapOk (pfn * g) addr then
          let p : MsiPage := { phys := addr, iova := pfn * g }
          (some p, { ck with pages := p :: ck.pages })
        else (none, ck)
    else
      if mapOk ck.msi_iova addr then
        let p : MsiPage := { phys := addr, iova := ck.msi_iova }
        (some p, { ck with msi_iova := ck.msi_iova + g, pages := p :: ck.pages })
      else (none, ck)

/-- An MSI message: two 32-bit address halves and the payload. -/
structure MsiMsg where
  address_hi : Nat
  address_lo : Nat
  data : Nat
deriving Repr, DecidableEq

/-- `iommu_dma_map_msi_msg`: bail out untouched when the device has no
domain or no cookie; otherwise remap the doorbell, rewriting the
address to the bus address (keeping the sub-granule bits) on success
and poisoning the whole message with all-ones on failure.  The domain
is `Option (Option MsiCookie)`. -/
def iommu_dma_map_msi_msg (dom : Option (Option MsiCookie)) (g : Nat)
    (force_aperture : Bool) (aperture_end : Nat)
    (orc : Nat → Nat → Bool → Option Nat) (dma_mask : Nat)
    (kallocOk : Bool) (mapOk : Nat → Nat → Bool) (msg : MsiMsg) :
    MsiMsg × Option (Option MsiCookie) :=
  match dom with
  | none => (msg, dom)
  | some none => (msg, dom)
  | some (some ck) =>
    let msi_addr := (msg.address_hi <<< 32) ||| msg.address_lo
    match iommu_dma_get_msi_page g force_aperture aperture_end orc dma_mask msi_addr
        ck kallocOk mapOk with
    | (none, ck') =>
      ({ address_hi := 2 ^ 32 - 1, address_lo := 2 ^ 32 - 1, data := 2 ^ 32 - 1 },
        some (some ck'))
    | (some p, ck') =>
      ({ address_hi := p.iova >>> 32
         address_lo := (msg.address_lo &&& (g - 1)) + p.iova % 2 ^ 32
         data := msg.data }, some (some ck'))

/-- `iommu_dma_supported`: the capability probe accepts everything. -/
def iommu_dma_supported (dev mask : Nat) : Int := 1

/-! ## A structural restatement of the swizzle/padding loop

`map_sg_cont g cum p rest` is the loop with `prev = p` pending and
`iova_len = cum`; it is proved equal to the tail-recursive
`map_sg_pass1_go` and is the convenient shape for induction. -/

def map_sg_cont (g : Nat) : Nat → SGEnt → List SGEnt → List SGEnt × Nat
  | cum, p, [] => ([p], cum)
  | cum, p, s :: rest =>
    let s' := sg_swizzle g s
    let pad := sg_pad cum s'.length
    let r := map_sg_cont g (cum + pad + s'.length) s' rest
    ({ p with length := p.length + pad } :: r.1, r.2)

/-! ## The claim-side padding description

These definitions follow the specification's words: each segment's
length becomes the granule-rounded length of its original span, and
each later segment contributes a pad of `(P - cum) mod P` (mathematical
remainders) to its predecessor, `P` being the power-of-two round-up of
its own rounded length. -/

def sg_claim_pad (cum P : Nat) : Nat := (P - cum % P) % P

def sg_claim_lens (g : Nat) : Nat → Nat → List SGEnt → List Nat
  | _, L0, [] => [L0]
  | cum, L0, s :: rest =>
    let L := iova_align g (s.length + s.offset % g)
    let pad := sg_claim_pad cum (roundup_pow_of_two L)
    (L0 + pad) :: sg_claim_lens g (cum + pad + L) L rest

def sg_claim_all (g : Nat) : List SGEnt → List Nat
  | [] => []
  | s :: rest =>
    sg_claim_lens g (iova_align g (s.length + s.offset % g))
      (iova_align g (s.length + s.offset % g)) rest

/-! ## Arithmetic groundwork -/

theorem log2f_spec : ∀ f n, 1 ≤ n → n < 2 ^ f →
    2 ^ log2f f n ≤ n ∧ n < 2 ^ (log2f f n + 1) := by
  intro f
  induction f with
  | zero => intro n h1 h2; omega
  | succ f ih =>
    intro n h1 h2
    rw [log2f]
    by_cases hn : n ≤ 1
    · simp only [if_pos hn]
      have : n = 1 := by omega
      subst this
      constructor <;> simp
    · simp only [if_neg hn]
      have hd1 : 1 ≤ n / 2 := by omega
      have hd2 : n / 2 < 2 ^ f := by
        have : (2 : Nat) ^ (f + 1) = 2 * 2 ^ f := by ring
        omega
      obtain ⟨ha, hb⟩ := ih (n / 2) hd1 hd2
      set k := log2f f (n / 2) with hk
      have e1 : (2 : Nat) ^ (1 + k) = 2 * 2 ^ k := by ring
      have e2 : (2 : Nat) ^ (1 + k + 1) = 2 * 2 ^ (k + 1) := by ring
      constructor
      · omega
      · omega

theorem ilog2_spec {n : Nat} (h1 : 1 ≤ n) (h2 : n < 2 ^ 64) :
    2 ^ ilog2 n ≤ n ∧ n < 2 ^ (ilog2 n + 1) :=
  log2f_spec 64 n h1 h2

/-- `fls m ≤ k` whenever `m < 2 ^ k` (for words, i.e. `k ≤ 64`). -/
theorem fls_le {m k : Nat} (hm : m < 2 ^ k) (hk : k ≤ 64) : fls m ≤ k := by
  rcases Nat.eq_zero_or_pos m with h | h
  · subst h; simp [fls]
  · have hm64 : m < 2 ^ 64 := lt_of_lt_of_le hm (Nat.pow_le_pow_right (by norm_num) hk)
    obtain ⟨ha, _⟩ := ilog2_spec h hm64
    rw [fls, if_neg (by omega)]
    by_contra hcon
    have hkk : k ≤ ilog2 m := by omega
    have h2 : (2 : Nat) ^ k ≤ 2 ^ ilog2 m := Nat.pow_le_pow_right (by norm_num) hkk
    exact absurd ((le_trans h2 ha).trans_lt hm) (lt_irrefl _)

/-- `roundup_pow_of_two` is at least its argument (for word-sized
arguments). -/
theorem roundup_ge {n : Nat} (h : n ≤ 2 ^ 64) : n ≤ roundup_pow_of_two n := by
  rcases Nat.lt_or_ge n 2 with h2 | h2
  · interval_cases n <;> simp [roundup_pow_of_two, fls, ilog2, log2f]
  · have h1 : 1 ≤ n - 1 := by omega
    have hlt : n - 1 < 2 ^ 64 := by omega
    obtain ⟨_, hb⟩ := ilog2_spec h1 hlt
    rw [roundup_pow_of_two, fls, if_neg (by omega)]
    omega

/-- `roundup_pow_of_two n ≤ 2 ^ k` whenever `n ≤ 2 ^ k` (words). -/
theorem roundup_le {n k : Nat} (h : n ≤ 2 ^ k) (hk : k ≤ 64) :
    roundup_pow_of_two n ≤ 2 ^ k := by
  have hfls : fls (n - 1) ≤ k := fls_le (by have := Nat.two_pow_pos k; omega) hk
  rw [roundup_pow_of_two]
  exact Nat.pow_le_pow_right (by norm_num) hfls

/-- The source's wrap-around pad computation agrees with the
specification's mathematical `(P - cum) mod P` whenever the running
total and the rounded segment length fit in 64 bits. -/
theorem sg_pad_eq_claim {cum L : Nat} (hc : cum < 2 ^ 64) (hL : L ≤ 2 ^ 64) :
    sg_pad cum L = sg_claim_pad cum (roundup_pow_of_two L) := by
  have hj : fls (L - 1) ≤ 64 := fls_le (by omega) le_rfl
  rw [sg_pad, sg_claim_pad, roundup_pow_of_two]
  set j := fls (L - 1) with hjdef
  show size_sub (2 ^ j) cum &&& 2 ^ j - 1 = (2 ^ j - cum % 2 ^ j) % 2 ^ j
  rw [Nat.and_pow_two_sub_one_eq_mod, size_sub, Nat.mod_eq_of_lt hc]
  have hdvd : (2 : Nat) ^ j ∣ 2 ^ 64 := pow_dvd_pow 2 hj
  rw [Nat.mod_mod_of_dvd _ hdvd]
  -- both sides are `(2 ^ j - cum % 2 ^ j) % 2 ^ j`
  obtain ⟨t, ht⟩ := hdvd
  have hP : 0 < (2 : Nat) ^ j := Nat.two_pow_pos j
  have hq := Nat.div_add_mod cum (2 ^ j)
  set P := (2 : Nat) ^ j
  set q := cum / P
  set r := cum % P
  have hr : r < P := Nat.mod_lt _ hP
  have hqt : q < t := by
    by_contra hcon
    have : t ≤ q := by omega
    have : P * t ≤ P * q := Nat.mul_le_mul_left _ this
    omega
  have hsplit : P + 2 ^ 64 - cum = P - r + (t - q) * P := by
    have e : (t - q) * P = t * P - q * P := Nat.sub_mul t q P
    have e2 : P * t = t * P := Nat.mul_comm _ _
    have e3 : P * q = q * P := Nat.mul_comm _ _
    have h1 : q * P ≤ t * P := Nat.mul_le_mul_right _ (by omega)
    omega
  rw [hsplit, Nat.add_mul_mod_self_right]

/-- The claim's pad makes the running total a multiple of `P`. -/
theorem sg_claim_pad_mod {cum P : Nat} (hP : 0 < P) :
    (cum + sg_claim_pad cum P) % P = 0 := by
  rw [sg_claim_pad]
  have hq := Nat.div_add_mod cum P
  set q := cum / P
  set r := cum % P
  have hr : r < P := Nat.mod_lt _ hP
  rcases Nat.eq_zero_or_pos r with h0 | h0
  · rw [h0, Nat.sub_zero, Nat.mod_self, Nat.add_zero]
    omega
  · rw [Nat.mod_eq_of_lt (by omega : P - r < P)]
    have : cum + (P - r) = P * q + P := by omega
    rw [this]
    have : P * q + P = P * (q + 1) := by ring
    rw [this, Nat.mul_mod_right]

/-! ## The tail recursion equals the structural recursion -/

theorem map_sg_go_eq_cont (g : Nat) : ∀ (rest acc : List SGEnt) (cum : Nat) (p : SGEnt),
    map_sg_pass1_go g (p :: acc) rest cum =
      (acc.reverse ++ (map_sg_cont g cum p rest).1, (map_sg_cont g cum p rest).2) := by
  intro rest
  induction rest with
  | nil => intro acc cum p; simp [map_sg_pass1_go, map_sg_cont]
  | cons s rest ih =>
    intro acc cum p
    rw [map_sg_pass1_go, map_sg_cont]
    rw [ih]
    simp [List.append_assoc]

theorem map_sg_pass1_eq_cont (g : Nat) (s : SGEnt) (l : List SGEnt) :
    iommu_dma_map_sg_pass1 g (s :: l) =
      map_sg_cont g (sg_swizzle g s).length (sg_swizzle g s) l := by
  rw [iommu_dma_map_sg_pass1, map_sg_pass1_go]
  rw [map_sg_go_eq_cont]
  simp

@[simp] theorem sg_swizzle_length (g : Nat) (s : SGEnt) :
    (sg_swizzle g s).length = iova_align g (s.length + s.offset % g) := rfl

theorem iova_align_bounds {g : Nat} (hg : 0 < g) (x : Nat) :
    x ≤ iova_align g x ∧ iova_align g x ≤ x + g - 1 := by
  have hd := Nat.div_add_mod (x + g - 1) g
  have hm : (x + g - 1) % g < g := Nat.mod_lt _ hg
  have e : iova_align g x = g * ((x + g - 1) / g) := by
    rw [iova_align, Nat.mul_comm]
  omega

/-- The swizzle/padding loop, compared with the claim's description:
the produced lengths are exactly the claim's (rounded length plus the
following segment's pad), and the running total is their sum. -/
theorem map_sg_cont_lens {g : Nat} (hg : 0 < g) : ∀ (rest : List SGEnt) (cum : Nat) (p : SGEnt),
    p.length ≤ cum →
    cum + 2 ^ 34 * rest.length ≤ 2 ^ 51 →
    (∀ s ∈ rest, s.length + 2 * g ≤ 2 ^ 32) →
    (map_sg_cont g cum p rest).1.map SGEnt.length = sg_claim_lens g cum p.length rest ∧
    (map_sg_cont g cum p rest).2 = cum - p.length + (sg_claim_lens g cum p.length rest).sum := by
  intro rest
  induction rest with
  | nil =>
    intro cum p h1 _ _
    refine ⟨by simp [map_sg_cont, sg_claim_lens], ?_⟩
    simp only [map_sg_cont, sg_claim_lens, List.sum_cons, List.sum_nil]
    omega
  | cons s rest ih =>
    intro cum p h1 h2 h3
    have hs : s.length + 2 * g ≤ 2 ^ 32 := h3 s (List.mem_cons_self s rest)
    have hoff : s.offset % g < g := Nat.mod_lt _ hg
    set L := iova_align g (s.length + s.offset % g) with hLdef
    have hLb := iova_align_bounds hg (s.length + s.offset % g)
    have hL32 : L ≤ 2 ^ 32 := by omega
    have hcum64 : cum < 2 ^ 64 := by
      have := Nat.mul_le_mul_left (2 ^ 34) (Nat.le_refl rest.length)
      omega
    have hpad : sg_pad cum L = sg_claim_pad cum (roundup_pow_of_two L) :=
      sg_pad_eq_claim hcum64 (by omega)
    have hPpos : 0 < roundup_pow_of_two L := Nat.two_pow_pos _
    have hP32 : roundup_pow_of_two L ≤ 2 ^ 32 := roundup_le hL32 (by norm_num)
    set pad := sg_claim_pad cum (roundup_pow_of_two L) with hpaddef
    have hpadlt : pad < roundup_pow_of_two L := Nat.mod_lt _ hPpos
    have hstep : (cum + pad + L) + 2 ^ 34 * rest.length ≤ 2 ^ 51 := by
      have : 2 ^ 34 * (s :: rest).length = 2 ^ 34 * rest.length + 2 ^ 34 := by
        simp [List.length_cons]; ring
      omega
    obtain ⟨ihl, ihs⟩ := ih (cum + pad + L) (sg_swizzle g s)
      (by simp only [sg_swizzle_length, ← hLdef]; omega) hstep
      (fun t ht => h3 t (List.mem_cons_of_mem _ ht))
    constructor
    · show ({ p with length := p.length + sg_pad cum (sg_swizzle g s).length } ::
          (map_sg_cont g (cum + sg_pad cum (sg_swizzle g s).length +
            (sg_swizzle g s).length) (sg_swizzle g s) rest).1).map SGEnt.length =
          sg_claim_lens g cum p.length (s :: rest)
      rw [sg_claim_lens]
      simp only [sg_swizzle_length, ← hLdef, hpad, ← hpaddef, List.map_cons]
      refine congrArg₂ _ rfl ?_
      simp only [sg_swizzle_length, ← hLdef] at ihl
      exact ihl
    · show (map_sg_cont g (cum + sg_pad cum (sg_swizzle g s).length +
            (sg_swizzle g s).length) (sg_swizzle g s) rest).2 =
          cum - p.length + (sg_claim_lens g cum p.length (s :: rest)).sum
      rw [sg_claim_lens]
      simp only [sg_swizzle_length, ← hLdef, hpad, ← hpaddef, List.sum_cons] at *
      rw [ihs]
      omega

/-- Every pad was chosen to land the next segment's start on a
multiple of that segment's power-of-two rounded length. -/
theorem sg_claim_lens_align {g : Nat} (hg : 0 < g) : ∀ (rest : List SGEnt) (cum L0 : Nat),
    L0 ≤ cum → ∀ i, (hi : i < rest.length) →
    (cum - L0 + ((sg_claim_lens g cum L0 rest).take (i + 1)).sum) %
      roundup_pow_of_two (iova_align g ((rest.get ⟨i, hi⟩).length +
        (rest.get ⟨i, hi⟩).offset % g)) = 0 := by
  intro rest
  induction rest with
  | nil => intro cum L0 _ i hi; simp at hi
  | cons s rest ih =>
    intro cum L0 hL0 i hi
    rw [sg_claim_lens]
    set L := iova_align g (s.length + s.offset % g) with hLdef
    set P := roundup_pow_of_two L with hPdef
    set pad := sg_claim_pad cum P with hpaddef
    cases i with
    | zero =>
      simp only [List.get, List.take, List.sum_cons, List.sum_nil]
      have e : cum - L0 + (L0 + pad + 0) = cum + pad := by omega
      rw [e, ← hLdef, ← hPdef, hpaddef]
      exact sg_claim_pad_mod (Nat.two_pow_pos _)
    | succ j =>
      have hj : j < rest.length := by simpa using hi
      have hrec := ih (cum + pad + L) L (by omega) j hj
      simp only [List.take, List.sum_cons]
      have e : cum - L0 + (L0 + pad + ((sg_claim_lens g (cum + pad + L) L rest).take (j + 1)).sum)
          = cum + pad + L - L + ((sg_claim_lens g (cum + pad + L) L rest).take (j + 1)).sum := by
        omega
      rw [e]
      exact hrec

/-- C1.  In the first (swizzle/padding) pass of `iommu_dma_map_sg` over
a non-empty segment list, every segment's length becomes the
granule-rounded length of its original span plus, for each following
segment, a pad of exactly `(P - cumulative) mod P` (`P` the power-of-two
round-up of the following segment's rounded length) added to the
previous segment's length and to the running total, so each
segment other than the first begins at a cumulative length that is a
multiple of its `P`.  The bounds keep every `size_t`/`unsigned int`
quantity of the source in range. -/
theorem map_sg_pass1_matches_claim (g : Nat) (l : List SGEnt) (hg : 0 < g)
    (hlen : ∀ s ∈ l, s.length + 2 * g ≤ 2 ^ 32)
    (hn : l.length ≤ 2 ^ 16) (hne : l ≠ []) :
    (iommu_dma_map_sg_pass1 g l).1.map SGEnt.length = sg_claim_all g l ∧
    (iommu_dma_map_sg_pass1 g l).2 = (sg_claim_all g l).sum ∧
    (∀ i, (hi : i < l.length) → 0 < i →
      ((sg_claim_all g l).take i).sum %
        roundup_pow_of_two (iova_align g ((l.get ⟨i, hi⟩).length +
          (l.get ⟨i, hi⟩).offset % g)) = 0) := by
  cases l with
  | nil => exact absurd rfl hne
  | cons s rest =>
    have hs : s.length + 2 * g ≤ 2 ^ 32 := hlen s (List.mem_cons_self s rest)
    have hoff : s.offset % g < g := Nat.mod_lt _ hg
    set L0 := iova_align g (s.length + s.offset % g) with hL0def
    have hLb := iova_align_bounds hg (s.length + s.offset % g)
    have hL032 : L0 ≤ 2 ^ 32 := by omega
    have hrestlen : rest.length + 1 ≤ 2 ^ 16 := by simpa using hn
    have hbound : L0 + 2 ^ 34 * rest.length ≤ 2 ^ 51 := by
      have : 2 ^ 34 * rest.length ≤ 2 ^ 34 * 2 ^ 16 :=
        Nat.mul_le_mul_left _ (by omega)
      omega
    obtain ⟨hl, hsum⟩ := map_sg_cont_lens hg rest L0 (sg_swizzle g s)
      (by simp only [sg_swizzle_length, ← hL0def]; omega) hbound
      (fun t ht => hlen t (List.mem_cons_of_mem _ ht))
    rw [map_sg_pass1_eq_cont]
    have hall : sg_claim_all g (s :: rest) = sg_claim_lens g L0 L0 rest := by
      rw [sg_claim_all]
    simp only [sg_swizzle_length, ← hL0def] at hl hsum ⊢
    refine ⟨by rw [hall]; exact hl, by rw [hall, hsum]; omega, ?_⟩
    intro i hi hipos
    cases i with
    | zero => exact absurd hipos (by omega)
    | succ j =>
      have hj : j < rest.length := by simpa using hi
      have := sg_claim_lens_align hg rest L0 L0 le_rfl j hj
      rw [hall]
      simpa using this

/-- Concrete witness for C1: granule 4096, two unaligned segments. -/
theorem map_sg_pass1_matches_claim_witness :
    (0 < 4096 ∧ (∀ s ∈ [SGEnt.mk 5 100 0 0, SGEnt.mk 4000 5000 0 0],
        s.length + 2 * 4096 ≤ 2 ^ 32) ∧
      ([SGEnt.mk 5 100 0 0, SGEnt.mk 4000 5000 0 0].length ≤ 2 ^ 16)) ∧
    (iommu_dma_map_sg_pass1 4096 [SGEnt.mk 5 100 0 0, SGEnt.mk 4000 5000 0 0]).1.map
        SGEnt.length = sg_claim_all 4096 [SGEnt.mk 5 100 0 0, SGEnt.mk 4000 5000 0 0] ∧
    (iommu_dma_map_sg_pass1 4096 [SGEnt.mk 5 100 0 0, SGEnt.mk 4000 5000 0 0]).2 =
      (sg_claim_all 4096 [SGEnt.mk 5 100 0 0, SGEnt.mk 4000 5000 0 0]).sum := by
  have h := map_sg_pass1_matches_claim 4096
    [SGEnt.mk 5 100 0 0, SGEnt.mk 4000 5000 0 0]
    (by decide) (by decide) (by decide) (by decide)
  exact ⟨⟨by decide, by decide, by decide⟩, h.1, h.2.1⟩

/-! ## C2: the failure path restores the original list -/

/-- Restoring ignores the length field whenever a stashed length is
present. -/
theorem sg_inval_len_irrel (s : SGEnt) (x : Nat) (h : s.dma_len ≠ 0) :
    sg_inval { s with length := x } = sg_inval s := by
  simp [sg_inval, h]

/-- Un-swizzling a swizzled entry gives the entry back, provided the
entry was a live one (positive length, DMA fields still holding the
canonical unused values) and the granule is a real word. -/
theorem sg_inval_swizzle {g : Nat} (hg : 0 < g) (hg32 : g ≤ 2 ^ 32) (s : SGEnt)
    (hlen : 0 < s.length) (haddr : s.dma_address = DMA_ERROR_CODE)
    (hdl : s.dma_len = 0) : sg_inval (sg_swizzle g s) = s := by
  have hoff : s.offset % g < g := Nat.mod_lt _ hg
  have hne : s.offset % g ≠ DMA_ERROR_CODE := by
    rw [DMA_ERROR_CODE]; omega
  have hrestore : s.offset - s.offset % g + s.offset % g = s.offset :=
    Nat.sub_add_cancel (Nat.mod_le _ _)
  cases s with
  | mk o ln da dl =>
    simp only [sg_inval, sg_swizzle, iova_offset] at *
    simp [hne, hrestore, haddr, hdl, Nat.pos_iff_ne_zero.mp hlen]

/-- Restoration across the whole swizzle/padding loop. -/
theorem invalidate_cont {g : Nat} (hg : 0 < g) (hg32 : g ≤ 2 ^ 32) :
    ∀ (rest : List SGEnt) (cum : Nat) (p s0 : SGEnt),
    p.dma_len ≠ 0 → sg_inval p = s0 →
    (∀ s ∈ rest, 0 < s.length ∧ s.dma_address = DMA_ERROR_CODE ∧ s.dma_len = 0) →
    __invalidate_sg (map_sg_cont g cum p rest).1 = s0 :: rest := by
  intro rest
  induction rest with
  | nil =>
    intro cum p s0 hp hps _
    simp [map_sg_cont, __invalidate_sg, hps]
  | cons s rest ih =>
    intro cum p s0 hp hps hr
    obtain ⟨hlen, haddr, hdl⟩ := hr s (List.mem_cons_self s rest)
    rw [map_sg_cont, __invalidate_sg]
    simp only [List.map_cons]
    rw [sg_inval_len_irrel p _ hp, hps]
    have htail := ih (cum + sg_pad cum (sg_swizzle g s).length + (sg_swizzle g s).length)
      (sg_swizzle g s) s (by simp [sg_swizzle]; omega)
      (sg_inval_swizzle hg hg32 s hlen haddr hdl)
      (fun t ht => hr t (List.mem_cons_of_mem _ ht))
    rw [__invalidate_sg] at htail
    rw [htail]

/-- C2.  If `iommu_dma_map_sg` fails at the install step (or earlier at
IOVA allocation), `__invalidate_sg` leaves the segment list bit-for-bit
identical to the list before the call and the function returns 0.  The
hypotheses pin the pre-call list to live entries whose DMA output
fields still hold the canonical unused values (`DMA_ERROR_CODE`, 0),
which is what "the list before the call" looks like bitwise. -/
theorem map_sg_failure_restores (g : Nat) (force_aperture : Bool) (aperture_end : Nat)
    (orc : Nat → Nat → Bool → Option Nat) (dma_mask : Nat)
    (install : Nat → List SGEnt → Nat) (l : List SGEnt)
    (hg : 0 < g) (hg32 : g ≤ 2 ^ 32)
    (hl : ∀ s ∈ l, 0 < s.length ∧ s.dma_address = DMA_ERROR_CODE ∧ s.dma_len = 0)
    (hfail : ∀ pfn, __alloc_iova g force_aperture aperture_end orc
        (iommu_dma_map_sg_pass1 g l).2 dma_mask = some pfn →
      install (pfn * g) (iommu_dma_map_sg_pass1 g l).1 < (iommu_dma_map_sg_pass1 g l).2) :
    (iommu_dma_map_sg g force_aperture aperture_end orc dma_mask install l).sgl = l ∧
    (iommu_dma_map_sg g force_aperture aperture_end orc dma_mask install l).ret = 0 := by
  have hinv : __invalidate_sg (iommu_dma_map_sg_pass1 g l).1 = l := by
    cases l with
    | nil => simp [iommu_dma_map_sg_pass1, map_sg_pass1_go, __invalidate_sg]
    | cons s rest =>
      obtain ⟨hlen, haddr, hdl⟩ := hl s (List.mem_cons_self s rest)
      rw [map_sg_pass1_eq_cont]
      exact invalidate_cont hg hg32 rest (sg_swizzle g s).length (sg_swizzle g s) s
        (by simp [sg_swizzle]; omega) (sg_inval_swizzle hg hg32 s hlen haddr hdl)
        (fun t ht => hl t (List.mem_cons_of_mem _ ht))
  rcases halloc : __alloc_iova g force_aperture aperture_end orc
      (iommu_dma_map_sg_pass1 g l).2 dma_mask with _ | pfn
  · simp [iommu_dma_map_sg, halloc, hinv]
  · simp [iommu_dma_map_sg, halloc, hinv, hfail pfn halloc]

/-- Witness for C2: a two-segment list, allocator succeeds but the
low-level programmer maps nothing. -/
theorem map_sg_failure_restores_witness :
    (iommu_dma_map_sg 4096 false 0 (fun _ _ _ => some 1) (2 ^ 64 - 1) (fun _ _ => 0)
        [SGEnt.mk 5 100 (2 ^ 64 - 1) 0, SGEnt.mk 200 300 (2 ^ 64 - 1) 0]).sgl =
      [SGEnt.mk 5 100 (2 ^ 64 - 1) 0, SGEnt.mk 200 300 (2 ^ 64 - 1) 0] ∧
    (iommu_dma_map_sg 4096 false 0 (fun _ _ _ => some 1) (2 ^ 64 - 1) (fun _ _ => 0)
        [SGEnt.mk 5 100 (2 ^ 64 - 1) 0, SGEnt.mk 200 300 (2 ^ 64 - 1) 0]).ret = 0 :=
  map_sg_failure_restores 4096 false 0 (fun _ _ _ => some 1) (2 ^ 64 - 1) (fun _ _ => 0)
    [SGEnt.mk 5 100 (2 ^ 64 - 1) 0, SGEnt.mk 200 300 (2 ^ 64 - 1) 0]
    (by decide) (by decide) (by decide) (by decide)

/-! ## C3: device-visible spans after a successful `iommu_dma_map_sg` -/

/-- Every segment leaving the swizzle/padding loop stores at least its
stashed span (`in-granule offset + original length`) in its (possibly
padded) rounded length. -/
theorem cont_elem_bound {g : Nat} (hg : 0 < g) : ∀ (rest : List SGEnt) (cum : Nat) (p : SGEnt),
    p.dma_address + p.dma_len ≤ p.length →
    ∀ x ∈ (map_sg_cont g cum p rest).1, x.dma_address + x.dma_len ≤ x.length := by
  intro rest
  induction rest with
  | nil =>
    intro cum p hp x hx
    simp [map_sg_cont] at hx
    subst hx; exact hp
  | cons s rest ih =>
    intro cum p hp x hx
    rw [map_sg_cont] at hx
    simp only [List.mem_cons] at hx
    rcases hx with hx | hx
    · subst hx; simp; omega
    · refine ih _ (sg_swizzle g s) ?_ x hx
      have := (iova_align_bounds hg (s.length + s.offset % g)).1
      simp [sg_swizzle, iova_offset]
      omega

/-- The running total of the swizzle/padding loop equals the sum of
the lengths it hands out. -/
theorem map_sg_cont_sum (g : Nat) : ∀ (rest : List SGEnt) (cum : Nat) (p : SGEnt),
    p.length ≤ cum →
    (map_sg_cont g cum p rest).2 =
      (cum - p.length) + ((map_sg_cont g cum p rest).1.map SGEnt.length).sum := by
  intro rest
  induction rest with
  | nil =>
    intro cum p h
    show cum = cum - p.length + ([p].map SGEnt.length).sum
    simp
    omega
  | cons s rest ih =>
    intro cum p h
    show (map_sg_cont g (cum + sg_pad cum (sg_swizzle g s).length + (sg_swizzle g s).length)
        (sg_swizzle g s) rest).2 =
      cum - p.length +
        (({ p with length := p.length + sg_pad cum (sg_swizzle g s).length } ::
          (map_sg_cont g (cum + sg_pad cum (sg_swizzle g s).length + (sg_swizzle g s).length)
            (sg_swizzle g s) rest).1).map SGEnt.length).sum
    rw [ih (cum + sg_pad cum (sg_swizzle g s).length + (sg_swizzle g s).length)
      (sg_swizzle g s) (by omega)]
    simp only [List.map_cons, List.sum_cons]
    omega

/-- The `iova_len` computed by the first pass is the sum of the
transformed segment lengths. -/
theorem map_sg_pass1_sum (g : Nat) (l : List SGEnt) :
    (iommu_dma_map_sg_pass1 g l).2 =
      ((iommu_dma_map_sg_pass1 g l).1.map SGEnt.length).sum := by
  cases l with
  | nil => rfl
  | cons s rest =>
    rw [map_sg_pass1_eq_cont]
    rw [map_sg_cont_sum g rest (sg_swizzle g s).length (sg_swizzle g s) le_rfl]
    omega

/-- `__finalise_sg` keeps every restored span inside
`[base, base + sum of transformed lengths)`. -/
theorem finalise_sg_within : ∀ (m : List SGEnt) (base : Nat),
    (∀ x ∈ m, x.dma_address + x.dma_len ≤ x.length) →
    ∀ y ∈ __finalise_sg base m,
      base ≤ y.dma_address ∧
      y.dma_address + y.length ≤ base + (m.map SGEnt.length).sum := by
  intro m
  induction m with
  | nil => intro base _ y hy; simp [__finalise_sg] at hy
  | cons s t ih =>
    intro base hb y hy
    rw [__finalise_sg] at hy
    simp only [List.mem_cons] at hy
    rcases hy with hy | hy
    · subst hy
      have h1 := hb s (List.mem_cons_self _ _)
      simp only [List.map_cons, List.sum_cons]
      refine ⟨?_, ?_⟩
      · show base ≤ base + s.dma_address
        omega
      · show base + s.dma_address + s.dma_len ≤ base + (s.length + (t.map SGEnt.length).sum)
        omega
    · have := ih (base + s.length) (fun x hx => hb x (List.mem_cons_of_mem _ hx)) y hy
      simp only [List.map_cons, List.sum_cons]
      omega

/-- `__finalise_sg` lays the restored spans out in nondecreasing order:
each span ends no later than the next one begins. -/
theorem finalise_sg_ordered : ∀ (m : List SGEnt) (base : Nat),
    (∀ x ∈ m, x.dma_address + x.dma_len ≤ x.length) →
    List.Chain' (fun a b => a.dma_address + a.length ≤ b.dma_address)
      (__finalise_sg base m) := by
  intro m
  induction m with
  | nil => intro base _; simp [__finalise_sg]
  | cons s t ih =>
    intro base hb
    cases t with
    | nil => simp [__finalise_sg]
    | cons s2 t2 =>
      rw [__finalise_sg, __finalise_sg]
      refine List.Chain'.cons ?_ ?_
      · have h1 := hb s (List.mem_cons_self _ _)
        simp only []
        omega
      · have := ih (base + s.length) (fun x hx => hb x (List.mem_cons_of_mem _ hx))
        rw [__finalise_sg] at this
        exact this

/-- Counterexample to C3 as stated: two 100-byte granule-aligned
segments, a successful `iommu_dma_map_sg` (allocator hands out pfn 1,
programmer maps everything), yet the (device address, original length)
pairs do not tile a gap-free contiguous range: segment 1 ends at
4096 + 100 while segment 2 begins at 8192. -/
theorem map_sg_contiguity_counterexample :
    (iommu_dma_map_sg 4096 false 0 (fun _ _ _ => some 1) (2 ^ 64 - 1)
        (fun _ _ => 2 ^ 64) [SGEnt.mk 0 100 0 0, SGEnt.mk 0 100 0 0]).ret = 2 ∧
    ¬ List.Chain' (fun a b => b.dma_address = a.dma_address + a.length)
      (iommu_dma_map_sg 4096 false 0 (fun _ _ _ => some 1) (2 ^ 64 - 1)
        (fun _ _ => 2 ^ 64) [SGEnt.mk 0 100 0 0, SGEnt.mk 0 100 0 0]).sgl := by
  have e : (iommu_dma_map_sg 4096 false 0 (fun _ _ _ => some 1) (2 ^ 64 - 1)
      (fun _ _ => 2 ^ 64) [SGEnt.mk 0 100 0 0, SGEnt.mk 0 100 0 0]).sgl =
      [SGEnt.mk 0 100 4096 100, SGEnt.mk 0 100 8192 100] := by decide
  refine ⟨by decide, ?_⟩
  rw [e, List.chain'_cons]
  intro h
  have h2 : (8192 : Nat) = 4096 + 100 := h.1
  omega

/-- C3, amended.  After a successful `iommu_dma_map_sg`, the
per-segment (device address, original length) spans are laid out in
list order without overlaps, each contained in the single allocated
device-visible interval (base `pfn * granule`, length the computed
total `iova_len`); consecutive spans may be separated by
granule-alignment and power-of-two padding slack, so a span may end
strictly before the next begins. -/
theorem map_sg_success_spans_ordered (g : Nat) (force_aperture : Bool) (aperture_end : Nat)
    (orc : Nat → Nat → Bool → Option Nat) (dma_mask : Nat)
    (install : Nat → List SGEnt → Nat) (l : List SGEnt) (hg : 0 < g)
    (hret : (iommu_dma_map_sg g force_aperture aperture_end orc dma_mask install l).ret ≠ 0) :
    ∃ pfn,
      (iommu_dma_map_sg g force_aperture aperture_end orc dma_mask install l).allocPfn =
        some pfn ∧
      List.Chain' (fun a b => a.dma_address + a.length ≤ b.dma_address)
        (iommu_dma_map_sg g force_aperture aperture_end orc dma_mask install l).sgl ∧
      ∀ y ∈ (iommu_dma_map_sg g force_aperture aperture_end orc dma_mask install l).sgl,
        pfn * g ≤ y.dma_address ∧
        y.dma_address + y.length ≤ pfn * g + (iommu_dma_map_sg_pass1 g l).2 := by
  rcases halloc : __alloc_iova g force_aperture aperture_end orc
      (iommu_dma_map_sg_pass1 g l).2 dma_mask with _ | pfn
  · rw [iommu_dma_map_sg] at hret
    simp [halloc] at hret
  · by_cases hinst : install (pfn * g) (iommu_dma_map_sg_pass1 g l).1 <
        (iommu_dma_map_sg_pass1 g l).2
    · rw [iommu_dma_map_sg] at hret
      simp [halloc, hinst] at hret
    · have hsgl : (iommu_dma_map_sg g force_aperture aperture_end orc dma_mask install l).sgl =
          __finalise_sg (pfn * g) (iommu_dma_map_sg_pass1 g l).1 := by
        rw [iommu_dma_map_sg]
        simp [halloc, hinst]
      have hpfn : (iommu_dma_map_sg g force_aperture aperture_end orc dma_mask
          install l).allocPfn = some pfn := by
        rw [iommu_dma_map_sg]
        simp [halloc, hinst]
      have helem : ∀ x ∈ (iommu_dma_map_sg_pass1 g l).1,
          x.dma_address + x.dma_len ≤ x.length := by
        cases l with
        | nil => intro x hx; simp [iommu_dma_map_sg_pass1, map_sg_pass1_go] at hx
        | cons s rest =>
          rw [map_sg_pass1_eq_cont]
          refine cont_elem_bound hg rest _ (sg_swizzle g s) ?_
          have := (iova_align_bounds hg (s.length + s.offset % g)).1
          simp [sg_swizzle, iova_offset]
          omega
      refine ⟨pfn, hpfn, ?_, ?_⟩
      · rw [hsgl]
        exact finalise_sg_ordered _ _ helem
      · intro y hy
        rw [hsgl] at hy
        have hw := finalise_sg_within _ (pfn * g) helem y hy
        rw [map_sg_pass1_sum g l]
        exact hw

/-- Witness for the amended C3 at the counterexample's own input. -/
theorem map_sg_success_spans_ordered_witness :
    ∃ pfn,
      (iommu_dma_map_sg 4096 false 0 (fun _ _ _ => some 1) (2 ^ 64 - 1)
        (fun _ _ => 2 ^ 64) [SGEnt.mk 0 100 0 0, SGEnt.mk 0 100 0 0]).allocPfn = some pfn ∧
      List.Chain' (fun a b => a.dma_address + a.length ≤ b.dma_address)
        (iommu_dma_map_sg 4096 false 0 (fun _ _ _ => some 1) (2 ^ 64 - 1)
          (fun _ _ => 2 ^ 64) [SGEnt.mk 0 100 0 0, SGEnt.mk 0 100 0 0]).sgl ∧
      ∀ y ∈ (iommu_dma_map_sg 4096 false 0 (fun _ _ _ => some 1) (2 ^ 64 - 1)
          (fun _ _ => 2 ^ 64) [SGEnt.mk 0 100 0 0, SGEnt.mk 0 100 0 0]).sgl,
        pfn * 4096 ≤ y.dma_address ∧
        y.dma_address + y.length ≤ pfn * 4096 +
          (iommu_dma_map_sg_pass1 4096 [SGEnt.mk 0 100 0 0, SGEnt.mk 0 100 0 0]).2 :=
  map_sg_success_spans_ordered 4096 false 0 (fun _ _ _ => some 1) (2 ^ 64 - 1)
    (fun _ _ => 2 ^ 64) [SGEnt.mk 0 100 0 0, SGEnt.mk 0 100 0 0]
    (by decide) (by decide)

/-! ## C4: `iommu_dma_map_page` -/

/-- C4.  A successful `iommu_dma_map_page` reserves an interval of the
granule-rounded length of `[phys, phys + size)`, installs the
translation at `phys` rounded down to a granule boundary, and returns
the interval base plus the in-granule offset, so the returned bus
address preserves the physical sub-granule offset. -/
theorem map_page_matches_claim (g : Nat) (force_aperture : Bool) (aperture_end : Nat)
    (orc : Nat → Nat → Bool → Option Nat) (page_phys offset size dma_mask : Nat)
    (mapOk : Nat → Nat → Nat → Bool) (pfn : Nat) (hg : 0 < g)
    (halloc : __alloc_iova g force_aperture aperture_end orc
      (iova_align g (size + (page_phys + offset) % g)) dma_mask = some pfn)
    (hmap : mapOk (pfn * g) (page_phys + offset - (page_phys + offset) % g)
      (iova_align g (size + (page_phys + offset) % g)) = true) :
    iommu_dma_map_page g force_aperture aperture_end orc page_phys offset size dma_mask mapOk =
      { allocLen := iova_align g (size + (page_phys + offset) % g)
        allocPfn := some pfn
        installed := some (pfn * g, page_phys + offset - (page_phys + offset) % g,
          iova_align g (size + (page_phys + offset) % g))
        iovaFreed := false
        ret := pfn * g + (page_phys + offset) % g } ∧
    (iommu_dma_map_page g force_aperture aperture_end orc page_phys offset size dma_mask
        mapOk).ret % g = (page_phys + offset) % g := by
  have h1 : iommu_dma_map_page g force_aperture aperture_end orc page_phys offset size
      dma_mask mapOk =
      { allocLen := iova_align g (size + (page_phys + offset) % g)
        allocPfn := some pfn
        installed := some (pfn * g, page_phys + offset - (page_phys + offset) % g,
          iova_align g (size + (page_phys + offset) % g))
        iovaFreed := false
        ret := pfn * g + (page_phys + offset) % g } := by
    rw [iommu_dma_map_page]
    simp only [iova_offset, halloc, hmap, if_true]
  refine ⟨h1, ?_⟩
  rw [h1]
  show (pfn * g + (page_phys + offset) % g) % g = (page_phys + offset) % g
  rw [Nat.mul_comm pfn g, Nat.mul_add_mod, Nat.mod_mod_of_dvd _ dvd_rfl]

/-- Witness for C4: granule 4096, physical 0x2003, length 100. -/
theorem map_page_matches_claim_witness :
    iommu_dma_map_page 4096 false 0 (fun _ _ _ => some 7) 8192 3 100 (2 ^ 64 - 1)
        (fun _ _ _ => true) =
      { allocLen := 4096, allocPfn := some 7, installed := some (28672, 8192, 4096)
        iovaFreed := false, ret := 28675 } ∧
    (iommu_dma_map_page 4096 false 0 (fun _ _ _ => some 7) 8192 3 100 (2 ^ 64 - 1)
        (fun _ _ _ => true)).ret % 4096 = (8192 + 3) % 4096 := by
  have h := map_page_matches_claim 4096 false 0 (fun _ _ _ => some 7) 8192 3 100
    (2 ^ 64 - 1) (fun _ _ _ => true) 7 (by decide) (by decide) (by decide)
  exact ⟨by rw [h.1]; decide, h.2⟩

/-! ## C5: re-initialising a DMA domain -/

/-- The aperture sanity check of `iommu_dma_init_domain`. -/
def init_domain_apfail (geo : DomGeometry) (base size : Nat) : Bool :=
  geo.force_aperture &&
    (decide (geo.aperture_end < base) || decide (base + size ≤ geo.aperture_start))

/-- The base pfn as computed (and aperture-clamped) by
`iommu_dma_init_domain`. -/
def init_domain_base_pfn (geo : DomGeometry) (order base : Nat) : Nat :=
  if geo.force_aperture then max (max 1 (base / 2 ^ order)) (geo.aperture_start / 2 ^ order)
  else max 1 (base / 2 ^ order)

/-- The end pfn as computed (and aperture-clamped) by
`iommu_dma_init_domain`. -/
def init_domain_end_pfn (geo : DomGeometry) (order base size : Nat) : Nat :=
  if geo.force_aperture then min ((base + size - 1) / 2 ^ order) (geo.aperture_end / 2 ^ order)
  else (base + size - 1) / 2 ^ order

/-- C5.  Re-initialising an already-initialised allocator succeeds iff
the aperture check passes, the granule and the base pfn are unchanged
and the new end does not shrink the range; any failing re-call returns
`-EFAULT` with the allocator state untouched, and a successful one
updates only the upper bound. -/
theorem init_domain_reinit_matches_claim (pgsize_bitmap : Nat) (geo : DomGeometry)
    (st : IovaDomain) (base size : Nat) (hinit : st.start_pfn ≠ 0) :
    ((iommu_dma_init_domain true pgsize_bitmap geo st base size).1 = 0 ↔
      (init_domain_apfail geo base size = false ∧
       2 ^ __ffs pgsize_bitmap = st.granule ∧
       init_domain_base_pfn geo (__ffs pgsize_bitmap) base = st.start_pfn ∧
       st.dma_32bit_pfn ≤ init_domain_end_pfn geo (__ffs pgsize_bitmap) base size)) ∧
    ((iommu_dma_init_domain true pgsize_bitmap geo st base size).1 ≠ 0 →
      (iommu_dma_init_domain true pgsize_bitmap geo st base size).1 = -14 ∧
      (iommu_dma_init_domain true pgsize_bitmap geo st base size).2 = st) ∧
    ((iommu_dma_init_domain true pgsize_bitmap geo st base size).1 = 0 →
      (iommu_dma_init_domain true pgsize_bitmap geo st base size).2 =
        { st with dma_32bit_pfn := init_domain_end_pfn geo (__ffs pgsize_bitmap) base size }) := by
  rw [iommu_dma_init_domain, init_domain_apfail, init_domain_base_pfn, init_domain_end_pfn]
  simp only [Bool.not_true, Bool.false_eq_true, if_false, if_pos hinit]
  by_cases hap : (geo.force_aperture &&
      (decide (geo.aperture_end < base) || decide (base + size ≤ geo.aperture_start))) = true
  · rw [if_pos hap]
    rw [hap]
    refine ⟨?_, fun _ => ⟨rfl, rfl⟩, fun h0 => absurd h0 (by norm_num)⟩
    constructor
    · intro h0; exact absurd h0 (by norm_num)
    · rintro ⟨hx, -⟩; exact absurd hx (by norm_num)
  · rw [if_neg hap]
    rw [Bool.not_eq_true] at hap
    rw [hap]
    by_cases hcomp : 2 ^ __ffs pgsize_bitmap ≠ st.granule ∨
        (if geo.force_aperture then max (max 1 (base / 2 ^ __ffs pgsize_bitmap))
          (geo.aperture_start / 2 ^ __ffs pgsize_bitmap)
         else max 1 (base / 2 ^ __ffs pgsize_bitmap)) ≠ st.start_pfn ∨
        (if geo.force_aperture then min ((base + size - 1) / 2 ^ __ffs pgsize_bitmap)
          (geo.aperture_end / 2 ^ __ffs pgsize_bitmap)
         else (base + size - 1) / 2 ^ __ffs pgsize_bitmap) < st.dma_32bit_pfn
    · rw [if_pos hcomp]
      refine ⟨?_, fun _ => ⟨rfl, rfl⟩, fun h0 => absurd h0 (by norm_num)⟩
      constructor
      · intro h0; exact absurd h0 (by norm_num)
      · rintro ⟨-, h1, h2, h3⟩
        rcases hcomp with h | h | h
        · exact absurd h1 h
        · exact absurd h2 h
        · omega
    · rw [if_neg hcomp]
      push_neg at hcomp
      refine ⟨?_, fun h0 => absurd rfl h0, fun _ => rfl⟩
      exact ⟨fun _ => ⟨rfl, hcomp.1, hcomp.2.1, hcomp.2.2⟩, fun _ => rfl⟩

/-- Witness for C5: page sizes 4K (order 12), allocator already covers
pfns [1, 100]; a compatible call enlarging the end to pfn 200 succeeds
and only moves the upper bound. -/
theorem init_domain_reinit_witness :
    ((iommu_dma_init_domain true 4096 (DomGeometry.mk false 0 0)
        (IovaDomain.mk 4096 1 100) 4096 819200).1 = 0 ↔
      (init_domain_apfail (DomGeometry.mk false 0 0) 4096 819200 = false ∧
       2 ^ __ffs 4096 = 4096 ∧
       init_domain_base_pfn (DomGeometry.mk false 0 0) (__ffs 4096) 4096 = 1 ∧
       100 ≤ init_domain_end_pfn (DomGeometry.mk false 0 0) (__ffs 4096) 4096 819200)) ∧
    ((iommu_dma_init_domain true 4096 (DomGeometry.mk false 0 0)
        (IovaDomain.mk 4096 1 100) 4096 819200).1 = 0 →
      (iommu_dma_init_domain true 4096 (DomGeometry.mk false 0 0)
        (IovaDomain.mk 4096 1 100) 4096 819200).2 =
        IovaDomain.mk 4096 1
          (init_domain_end_pfn (DomGeometry.mk false 0 0) (__ffs 4096) 4096 819200)) := by
  have h := init_domain_reinit_matches_claim 4096 (DomGeometry.mk false 0 0)
    (IovaDomain.mk 4096 1 100) 4096 819200 (by decide)
  exact ⟨h.1, h.2.2⟩

/-! ## C7: doorbell remap cache -/

/-- C7.  Once a doorbell granule has been remapped, a second request
for any physical address in the same granule hits the cache: it returns
the identical device-visible page and leaves the cookie untouched (no
new reservation, no bump-cursor advance, no new cache entry), whatever
allocator oracle, mask or installer the second call runs with. -/
theorem msi_page_second_call_cached (g : Nat) (fa1 fa2 : Bool) (ae1 ae2 : Nat)
    (orc1 orc2 : Nat → Nat → Bool → Option Nat) (mask1 mask2 a1 a2 : Nat)
    (ck ck1 : MsiCookie) (k1 k2 : Bool) (m1 m2 : Nat → Nat → Bool) (p : MsiPage)
    (hsame : a1 - a1 % g = a2 - a2 % g)
    (hfirst : iommu_dma_get_msi_page g fa1 ae1 orc1 mask1 a1 ck k1 m1 = (some p, ck1)) :
    iommu_dma_get_msi_page g fa2 ae2 orc2 mask2 a2 ck1 k2 m2 = (some p, ck1) := by
  have key : ck1.pages.find? (fun q => q.phys = (a1 - a1 % g)) = some p := by
    rw [iommu_dma_get_msi_page] at hfirst
    cases hfind : ck.pages.find? (fun q => q.phys = (a1 - a1 % g)) with
    | some q =>
      rw [hfind] at hfirst
      simp only [Prod.mk.injEq, Option.some.injEq] at hfirst
      obtain ⟨hq, hck⟩ := hfirst
      subst hq; subst hck
      exact hfind
    | none =>
      rw [hfind] at hfirst
      cases hk1 : k1 with
      | false => rw [hk1] at hfirst; simp at hfirst
      | true =>
        rw [hk1] at hfirst
        simp only [Bool.not_true, Bool.false_eq_true, if_false] at hfirst
        cases hfull : ck.full with
        | true =>
          rw [hfull] at hfirst
          simp only [if_true] at hfirst
          cases halloc : __alloc_iova g fa1 ae1 orc1 g mask1 with
          | none => simp only [halloc] at hfirst; simp at hfirst
          | some pfn =>
            simp only [halloc] at hfirst
            cases hm : m1 (pfn * g) (a1 - a1 % g) with
            | false => rw [hm] at hfirst; simp at hfirst
            | true =>
              rw [hm] at hfirst
              simp only [if_true, Prod.mk.injEq, Option.some.injEq] at hfirst
              obtain ⟨hp, hck⟩ := hfirst
              subst hp; subst hck
              exact List.find?_cons_of_pos _ (by simp)
        | false =>
          rw [hfull] at hfirst
          simp only [Bool.false_eq_true, if_false] at hfirst
          cases hm : m1 ck.msi_iova (a1 - a1 % g) with
          | false => rw [hm] at hfirst; simp at hfirst
          | true =>
            rw [hm] at hfirst
            simp only [if_true, Prod.mk.injEq, Option.some.injEq] at hfirst
            obtain ⟨hp, hck⟩ := hfirst
            subst hp; subst hck
            exact List.find?_cons_of_pos _ (by simp)
  rw [iommu_dma_get_msi_page, ← hsame, key]

/-- Witness for C7: a fresh linear (MsiOnly) cookie, doorbell 0x3045
then 0x3FFF (same 4 KiB granule): the second call returns the same page
and the same cookie. -/
theorem msi_page_second_call_cached_witness :
    iommu_dma_get_msi_page 4096 false 0 (fun _ _ _ => none) 0 16383
        (MsiCookie.mk false 1052672 [MsiPage.mk 12288 1048576])
        false (fun _ _ => false) =
      (some (MsiPage.mk 12288 1048576), MsiCookie.mk false 1052672 [MsiPage.mk 12288 1048576]) := by
  have h := msi_page_second_call_cached 4096 false false 0 0
    (fun _ _ _ => none) (fun _ _ _ => none) (2 ^ 64 - 1) 0 12357 16383
    (MsiCookie.mk false 1048576 []) (MsiCookie.mk false 1052672 [MsiPage.mk 12288 1048576])
    true false (fun _ _ => true) (fun _ _ => false) (MsiPage.mk 12288 1048576)
    (by decide) (by decide)
  exact h

/-! ## C9: the capability probe -/

/-- C9.  `iommu_dma_supported` returns 1 for every device and mask. -/
theorem iommu_dma_supported_always_one : ∀ dev mask : Nat, iommu_dma_supported dev mask = 1 :=
  fun _ _ => rfl

/-! ## C10: interrupt messages are untouched without a domain/cookie -/

/-- C10.  With no domain, or a domain without a cookie,
`iommu_dma_map_msi_msg` returns with every field of the message
unchanged: no rewrite to a device-visible address and no all-ones
poisoning. -/
theorem map_msi_msg_no_cookie_untouched (dom : Option (Option MsiCookie)) (g : Nat)
    (fa : Bool) (ae : Nat) (orc : Nat → Nat → Bool → Option Nat) (dma_mask : Nat)
    (kallocOk : Bool) (mapOk : Nat → Nat → Bool) (msg : MsiMsg)
    (h : dom = none ∨ dom = some none) :
    iommu_dma_map_msi_msg dom g fa ae orc dma_mask kallocOk mapOk msg = (msg, dom) := by
  rcases h with h | h <;> subst h <;> rfl

/-- Witness for C10 at a concrete message and cookie-less domain. -/
theorem map_msi_msg_no_cookie_untouched_witness :
    iommu_dma_map_msi_msg (some none) 4096 false 0 (fun _ _ _ => some 1) 0 true
        (fun _ _ => true) (MsiMsg.mk 1 73 9) = (MsiMsg.mk 1 73 9, some none) :=
  map_msi_msg_no_cookie_untouched (some none) 4096 false 0 (fun _ _ _ => some 1) 0 true
    (fun _ _ => true) (MsiMsg.mk 1 73 9) (Or.inr rfl)

/-! ## C8: every reservation is requested size-aligned -/

theorem iova_align_idem {g : Nat} (hg : 0 < g) (x : Nat) :
    iova_align g (iova_align g x) = iova_align g x := by
  rw [iova_align, iova_align]
  set q := (x + g - 1) / g
  have hc : g * q = q * g := Nat.mul_comm g q
  have e : q * g + g - 1 = g - 1 + g * q := by omega
  rw [e, Nat.add_mul_div_left _ _ hg, Nat.div_eq_of_lt (by omega), Nat.zero_add]

set_option maxHeartbeats 1000000 in
/-- C8.  `__alloc_iova` always passes `size_aligned = true` and a
length of `iova_align(size)` granules to the backing allocator, so if
the backing allocator honours size-alignment (its base pfn is a
multiple of the power-of-two round-up of the requested granule count —
modelled from the spec, `drivers/iommu/iova.c` is not among the
collected sources), then every successful reservation on every path
(`map_page`, `map_sg`, buffer allocation, Full-cookie doorbell) has a
size-aligned base. -/
theorem alloc_iova_paths_size_aligned (g : Nat) (orc : Nat → Nat → Bool → Option Nat)
    (hg : 0 < g)
    (horc : ∀ len lim pfn, orc len lim true = some pfn → pfn % roundup_pow_of_two len = 0) :
    (∀ fa ae size lim pfn, __alloc_iova g fa ae orc size lim = some pfn →
       pfn % roundup_pow_of_two (iova_align g size / g) = 0) ∧
    (∀ fa ae pp off size mask mapOk pfn,
       (iommu_dma_map_page g fa ae orc pp off size mask mapOk).allocPfn = some pfn →
       pfn % roundup_pow_of_two (iova_align g (size + (pp + off) % g) / g) = 0) ∧
    (∀ fa ae mask install l pfn,
       (iommu_dma_map_sg g fa ae orc mask install l).allocPfn = some pfn →
       pfn % roundup_pow_of_two (iova_align g (iommu_dma_map_sg_pass1 g l).2 / g) = 0) ∧
    (∀ fa ae orcP size mask sgOk mapped pfn,
       (iommu_dma_alloc g fa ae orcP orc size mask sgOk mapped).iovaAllocated = some pfn →
       pfn % roundup_pow_of_two (iova_align g size / g) = 0) ∧
    (∀ fa ae mask addr ck kOk mOk p ck2,
       ck.full = true →
       ck.pages.find? (fun q => q.phys = (addr - addr % g)) = none →
       iommu_dma_get_msi_page g fa ae orc mask addr ck kOk mOk = (some p, ck2) →
       ∃ pfn, p.iova = pfn * g ∧ pfn % roundup_pow_of_two (iova_align g g / g) = 0) := by
  have base : ∀ fa ae size lim pfn, __alloc_iova g fa ae orc size lim = some pfn →
      pfn % roundup_pow_of_two (iova_align g size / g) = 0 := by
    intro fa ae size lim pfn h
    rw [__alloc_iova] at h
    exact horc _ _ _ h
  refine ⟨base, ?_, ?_, ?_, ?_⟩
  · intro fa ae pp off size mask mapOk pfn h
    rw [iommu_dma_map_page] at h
    cases halloc : __alloc_iova g fa ae orc
        (iova_align g (size + iova_offset g (pp + off))) mask with
    | none => rw [halloc] at h; simp at h
    | some pfn2 =>
      simp only [halloc] at h
      have hpfn : pfn2 = pfn := by
        by_cases hm : mapOk (pfn2 * g) (pp + off - iova_offset g (pp + off))
            (iova_align g (size + iova_offset g (pp + off))) = true
        · rw [if_pos hm] at h; simpa using h
        · rw [if_neg hm] at h; simpa using h
      subst hpfn
      have := base fa ae (iova_align g (size + iova_offset g (pp + off))) mask pfn2 halloc
      rwa [iova_align_idem hg, iova_offset] at this
  · intro fa ae mask install l pfn h
    rw [iommu_dma_map_sg] at h
    cases halloc : __alloc_iova g fa ae orc (iommu_dma_map_sg_pass1 g l).2 mask with
    | none => rw [halloc] at h; simp at h
    | some pfn2 =>
      simp only [halloc] at h
      have hpfn : pfn2 = pfn := by
        by_cases hm : install (pfn2 * g) (iommu_dma_map_sg_pass1 g l).1 <
            (iommu_dma_map_sg_pass1 g l).2
        · rw [if_pos hm] at h; simpa using h
        · rw [if_neg hm] at h; simpa using h
      subst hpfn
      exact base fa ae _ mask pfn2 halloc
  · intro fa ae orcP size mask sgOk mapped pfn h
    rw [iommu_dma_alloc] at h
    cases hp : (__iommu_dma_alloc_pages orcP ((size + PAGE_SIZE - 1) / PAGE_SIZE)).pages with
    | none => rw [hp] at h; simp at h
    | some pages =>
      simp only [hp] at h
      cases halloc : __alloc_iova g fa ae orc size mask with
      | none => rw [halloc] at h; simp at h
      | some pfn2 =>
        simp only [halloc] at h
        have hpfn : pfn2 = pfn := by
          by_cases hs : sgOk
          · rw [hs] at h
            by_cases hm : mapped < iova_align g size
            · rw [if_pos hm] at h; simpa using h
            · rw [if_neg hm] at h; simpa using h
          · rw [Bool.not_eq_true] at hs
            rw [hs] at h
            simpa using h
        subst hpfn
        exact base fa ae _ mask pfn2 halloc
  · intro fa ae mask addr ck kOk mOk p ck2 hfull hfind h
    rw [iommu_dma_get_msi_page, hfind] at h
    cases hk : kOk with
    | false => rw [hk] at h; simp at h
    | true =>
      rw [hk] at h
      simp only [Bool.not_true, Bool.false_eq_true, if_false, hfull, if_true] at h
      cases halloc : __alloc_iova g fa ae orc g mask with
      | none => simp only [halloc] at h; simp at h
      | some pfn =>
        simp only [halloc] at h
        cases hm : mOk (pfn * g) (addr - addr % g) with
        | false => rw [hm] at h; simp at h
        | true =>
          rw [hm] at h
          simp only [if_true, Prod.mk.injEq, Option.some.injEq] at h
          obtain ⟨hp, -⟩ := h
          exact ⟨pfn, by rw [← hp], base fa ae g mask pfn halloc⟩

/-- Witness for C8: a backing allocator that always returns the
power-of-two round-up of the requested granule count (trivially
size-aligned); `map_page` at granule 4096 then reserves pfn 1 and
1 is a multiple of the rounded-up length 1. -/
theorem alloc_iova_paths_size_aligned_witness :
    (iommu_dma_map_page 4096 false 0 (fun len _ _ => some (roundup_pow_of_two len))
        8192 3 100 (2 ^ 64 - 1) (fun _ _ _ => true)).allocPfn = some 1 ∧
    (1 : Nat) % roundup_pow_of_two (iova_align 4096 (100 + (8192 + 3) % 4096) / 4096) = 0 := by
  have h := alloc_iova_paths_size_aligned 4096
    (fun len _ _ => some (roundup_pow_of_two len)) (by decide)
    (by intro len lim pfn hsome
        simp only [Option.some.injEq] at hsome
        rw [← hsome, Nat.mod_self])
  have hfield : (iommu_dma_map_page 4096 false 0
      (fun len _ _ => some (roundup_pow_of_two len)) 8192 3 100 (2 ^ 64 - 1)
      (fun _ _ _ => true)).allocPfn = some 1 := by decide
  exact ⟨hfield, h.2.1 false 0 8192 3 100 (2 ^ 64 - 1) (fun _ _ _ => true) 1 hfield⟩

/-! ## C6: buffer allocation failure behaviour -/

/-- With a page-frame allocator that always fails, the descending loop
attempts every order from its start down to 1 and ends page-less. -/
theorem try_orders_all_fail (orc : Nat → Nat → Option PgResp)
    (hfail : ∀ ci o, orc ci o = none) :
    ∀ o ci, try_orders orc o ci none =
      { res := TryRes.nopage, ci := ci + o, freed := [],
        attempts := (List.range' 1 o).reverse } := by
  intro o
  induction o with
  | zero => intro ci; simp [try_orders]
  | succ o ih =>
    intro ci
    rw [try_orders, hfail, ih]
    simp [List.range'_concat, Nat.add_comm, Nat.add_left_comm, Nat.add_assoc]

/-- With a page-frame allocator that always fails,
`__iommu_dma_alloc_pages` fails on its very first round: orders from
`min(MAX_ORDER, __fls count)` down to 1 are tried, then the order-0
fallback, nothing is acquired and nothing needs freeing. -/
theorem alloc_pages_all_fail (orc : Nat → Nat → Option PgResp)
    (hfail : ∀ ci o, orc ci o = none) (count : Nat) (hc : 0 < count) :
    __iommu_dma_alloc_pages orc count =
      { pages := none, freedPages := [], freedRuns := [],
        attempts := (List.range' 1 (min MAX_ORDER (__fls count))).reverse ++ [0],
        acquired := [] } := by
  obtain ⟨f, rfl⟩ : ∃ f, count = f + 1 := ⟨count - 1, by omega⟩
  rw [__iommu_dma_alloc_pages, alloc_pages_rounds]
  rw [if_neg (by omega)]
  simp only [try_orders_all_fail orc hfail, hfail]

/-- Whatever the page-frame allocator does, a failing run of the
acquisition loop releases exactly the pages it had acquired, and a
successful run hands out exactly them. -/
theorem alloc_pages_rounds_frees_acquired (orc : Nat → Nat → Option PgResp) :
    ∀ (fuel ci order count : Nat) (acc : List Nat),
      ((alloc_pages_rounds orc fuel ci order count acc).pages = none →
        (alloc_pages_rounds orc fuel ci order count acc).freedPages =
          (alloc_pages_rounds orc fuel ci order count acc).acquired) ∧
      (∀ l, (alloc_pages_rounds orc fuel ci order count acc).pages = some l →
        (alloc_pages_rounds orc fuel ci order count acc).acquired = l) := by
  intro fuel
  induction fuel with
  | zero =>
    intro ci order count acc
    rw [alloc_pages_rounds]
    split
    · exact ⟨fun h => Option.noConfusion h, fun l hl => Option.some.inj hl⟩
    · exact ⟨fun _ => rfl, fun l hl => Option.noConfusion hl⟩
  | succ fuel ih =>
    intro ci order count acc
    rw [alloc_pages_rounds]
    split
    · exact ⟨fun h => Option.noConfusion h, fun l hl => Option.some.inj hl⟩
    · split
      · exact ih _ _ _ _
      · exact ih _ _ _ _
      · split
        · exact ih _ _ _ _
        · exact ⟨fun _ => rfl, fun l hl => Option.noConfusion hl⟩

/-- C6.  Page acquisition retries at successively smaller orders down
to a single page, and an order-0 failure fails the whole
`iommu_dma_alloc`: every page obtained so far is released (the freed
pages are exactly the acquired ones), the device-address reservation
is requested only after every page is in hand, and any failure after
the reservation frees it again. -/
theorem dma_alloc_failure_cleanup (g : Nat) (fa : Bool) (ae : Nat)
    (orcP : Nat → Nat → Option PgResp) (orcI : Nat → Nat → Bool → Option Nat)
    (size mask : Nat) (sgOk : Bool) (mapped : Nat) :
    ((∀ ci o, orcP ci o = none) → 0 < size →
      (iommu_dma_alloc g fa ae orcP orcI size mask sgOk mapped).pagesOut =
        { pages := none, freedPages := [], freedRuns := [],
          attempts := (List.range' 1 (min MAX_ORDER
            (__fls ((size + PAGE_SIZE - 1) / PAGE_SIZE)))).reverse ++ [0],
          acquired := [] } ∧
      (iommu_dma_alloc g fa ae orcP orcI size mask sgOk mapped).ret = none ∧
      (iommu_dma_alloc g fa ae orcP orcI size mask sgOk mapped).iovaRequested = false) ∧
    ((iommu_dma_alloc g fa ae orcP orcI size mask sgOk mapped).pagesOut.pages = none →
      (iommu_dma_alloc g fa ae orcP orcI size mask sgOk mapped).ret = none ∧
      (iommu_dma_alloc g fa ae orcP orcI size mask sgOk mapped).iovaRequested = false) ∧
    ((iommu_dma_alloc g fa ae orcP orcI size mask sgOk mapped).ret = none →
      (iommu_dma_alloc g fa ae orcP orcI size mask sgOk mapped).iovaAllocated = none ∨
      (iommu_dma_alloc g fa ae orcP orcI size mask sgOk mapped).iovaFreed = true) ∧
    ((iommu_dma_alloc g fa ae orcP orcI size mask sgOk mapped).iovaRequested = true →
      (iommu_dma_alloc g fa ae orcP orcI size mask sgOk mapped).pagesOut.pages ≠ none) ∧
    ((iommu_dma_alloc g fa ae orcP orcI size mask sgOk mapped).pagesOut.pages = none →
      (iommu_dma_alloc g fa ae orcP orcI size mask sgOk mapped).pagesOut.freedPages =
        (iommu_dma_alloc g fa ae orcP orcI size mask sgOk mapped).pagesOut.acquired) := by
  have hB : ∀ t : DmaAllocTrace, t = iommu_dma_alloc g fa ae orcP orcI size mask sgOk mapped →
      ((t.pagesOut.pages = none → t.ret = none ∧ t.iovaRequested = false) ∧
      (t.ret = none → t.iovaAllocated = none ∨ t.iovaFreed = true) ∧
      (t.iovaRequested = true → t.pagesOut.pages ≠ none)) ∧
      t.pagesOut = __iommu_dma_alloc_pages orcP ((size + PAGE_SIZE - 1) / PAGE_SIZE) := by
    intro t ht
    rw [iommu_dma_alloc] at ht
    cases hp : (__iommu_dma_alloc_pages orcP ((size + PAGE_SIZE - 1) / PAGE_SIZE)).pages with
    | none =>
      simp only [hp] at ht
      subst ht
      exact ⟨⟨fun _ => ⟨rfl, rfl⟩, fun _ => Or.inl rfl, fun h => absurd h (by simp)⟩, rfl⟩
    | some pages =>
      simp only [hp] at ht
      cases halloc : __alloc_iova g fa ae orcI size mask with
      | none =>
        simp only [halloc] at ht
        subst ht
        exact ⟨⟨fun h => absurd h (by simp [hp]), fun _ => Or.inl rfl, fun _ => by simp [hp]⟩,
          rfl⟩
      | some pfn =>
        simp only [halloc] at ht
        by_cases hs : sgOk
        · rw [hs] at ht
          by_cases hm : mapped < iova_align g size
          · rw [if_pos hm] at ht
            subst ht
            exact ⟨⟨fun h => absurd h (by simp [hp]), fun _ => Or.inr rfl,
              fun _ => by simp [hp]⟩, rfl⟩
          · rw [if_neg hm] at ht
            subst ht
            exact ⟨⟨fun h => absurd h (by simp [hp]), fun h => absurd h (by simp),
              fun _ => by simp [hp]⟩, rfl⟩
        · rw [Bool.not_eq_true] at hs
          rw [hs] at ht
          simp only [Bool.not_false, if_true] at ht
          subst ht
          exact ⟨⟨fun h => absurd h (by simp [hp]), fun _ => Or.inr rfl,
            fun _ => by simp [hp]⟩, rfl⟩
  refine ⟨?_, (hB _ rfl).1.1, (hB _ rfl).1.2.1, (hB _ rfl).1.2.2, ?_⟩
  · intro hfail hsize
    have hc : 0 < (size + PAGE_SIZE - 1) / PAGE_SIZE := by
      rw [PAGE_SIZE]; omega
    have hpages := alloc_pages_all_fail orcP hfail _ hc
    rw [iommu_dma_alloc, hpages]
    exact ⟨rfl, rfl, rfl⟩
  · intro h
    have hPO := (hB _ rfl).2
    rw [hPO] at h ⊢
    exact (alloc_pages_rounds_frees_acquired orcP ((size + PAGE_SIZE - 1) / PAGE_SIZE) 0
      MAX_ORDER ((size + PAGE_SIZE - 1) / PAGE_SIZE) []).1 h

/-- Witness for C6.  First, size 20000 with the zero-memory oracle:
orders 2, 1 are tried, then the order-0 fallback, and the operation
fails with no reservation requested.  Second, a partial-acquisition
run (two pages obtained at order 1, then the order-0 fallback fails):
the freed pages are exactly the acquired pages `[10, 11]`. -/
theorem dma_alloc_failure_cleanup_witness :
    ((iommu_dma_alloc 4096 false 0 (fun _ _ => none) (fun _ _ _ => some 1) 20000
        (2 ^ 64 - 1) true (2 ^ 64)).pagesOut =
      { pages := none, freedPages := [], freedRuns := [],
        attempts := (List.range' 1 (min MAX_ORDER
          (__fls ((20000 + PAGE_SIZE - 1) / PAGE_SIZE)))).reverse ++ [0],
        acquired := [] } ∧
     (iommu_dma_alloc 4096 false 0 (fun _ _ => none) (fun _ _ _ => some 1) 20000
        (2 ^ 64 - 1) true (2 ^ 64)).ret = none ∧
     (iommu_dma_alloc 4096 false 0 (fun _ _ => none) (fun _ _ _ => some 1) 20000
        (2 ^ 64 - 1) true (2 ^ 64)).iovaRequested = false) ∧
    (iommu_dma_alloc 4096 false 0 (fun _ _ => none) (fun _ _ _ => some 1) 20000
        (2 ^ 64 - 1) true (2 ^ 64)).pagesOut.attempts = [2, 1, 0] ∧
    (iommu_dma_alloc 4096 false 0
        (fun ci _ => if ci = 0 then some (PgResp.mk 10 false false) else none)
        (fun _ _ _ => some 1) 12288 (2 ^ 64 - 1) true (2 ^ 64)).pagesOut.pages = none ∧
    (iommu_dma_alloc 4096 false 0
        (fun ci _ => if ci = 0 then some (PgResp.mk 10 false false) else none)
        (fun _ _ _ => some 1) 12288 (2 ^ 64 - 1) true (2 ^ 64)).pagesOut.acquired = [10, 11] ∧
    (iommu_dma_alloc 4096 false 0
        (fun ci _ => if ci = 0 then some (PgResp.mk 10 false false) else none)
        (fun _ _ _ => some 1) 12288 (2 ^ 64 - 1) true (2 ^ 64)).pagesOut.freedPages =
      (iommu_dma_alloc 4096 false 0
        (fun ci _ => if ci = 0 then some (PgResp.mk 10 false false) else none)
        (fun _ _ _ => some 1) 12288 (2 ^ 64 - 1) true (2 ^ 64)).pagesOut.acquired :=
  ⟨(dma_alloc_failure_cleanup 4096 false 0 (fun _ _ => none) (fun _ _ _ => some 1) 20000
      (2 ^ 64 - 1) true (2 ^ 64)).1 (fun _ _ => rfl) (by decide),
   by decide, by decide, by decide,
   (dma_alloc_failure_cleanup 4096 false 0
      (fun ci _ => if ci = 0 then some (PgResp.mk 10 false false) else none)
      (fun _ _ _ => some 1) 12288 (2 ^ 64 - 1) true (2 ^ 64)).2.2.2.2 (by decide)⟩
